import Mathlib

/-!
Verification development for the butido build orchestrator core.

This file embeds, shallowly, the parts of the source relevant to the
dependency tree (`src/package/tree.rs`), runnable-job construction
(`src/job/runnable.rs`), the staging file store
(`src/filestore/staging.rs`), the db query subcommands
(`src/commands/db.rs`) and endpoint connection
(`src/commands/endpoint.rs`), and proves or refutes the specified
properties about them.
-/

namespace Butido

/-! ## Package data model

`PackageName` and `PackageVersion` are opaque string newtypes with
byte-exact equality.  A `Package` carries a name, a version and its
dependency lists (only the fields the verified operations inspect).
Version constraints are modelled from the spec: the spec leaves the
constraint language abstract ("constraints are evaluated by an explicit
constraint matcher", evaluation is total); we instantiate it as an
exact-version match, which is the shape the repository tests use
("p2 =2").
-/

abbrev PackageName := String

abbrev PackageVersion := String

/-- A dependency specifier, already parsed into a name and an
exact-version constraint. -/
structure Dependency where
  name : PackageName
  constr : PackageVersion
deriving DecidableEq, Repr

/-- A package: name, version, and its build and runtime dependency
lists (`Dependencies` in the source). -/
structure Package where
  name : PackageName
  version : PackageVersion
  buildDeps : List Dependency := []
  runtimeDeps : List Dependency := []
deriving DecidableEq, Repr

/-- `Package::get_all_dependencies`: the merged build+runtime
dependency list (build first, then runtime). -/
def Package.getAllDependencies (p : Package) : List Dependency :=
  p.buildDeps ++ p.runtimeDeps

/-- Strict character comparison by code point (byte order for
ASCII), as Rust's derived `Ord` on `String` compares bytes. -/
def charLtB (a b : Char) : Bool := Nat.blt a.toNat b.toNat

/-- Lexicographic strict comparison of character lists. -/
def strLtAux : List Char → List Char → Bool
  | [], [] => false
  | [], _ :: _ => true
  | _ :: _, [] => false
  | a :: as, b :: bs =>
    if charLtB a b then true
    else if charLtB b a then false
    else strLtAux as bs

/-- Lexicographic strict order on strings. -/
def strLtB (a b : String) : Bool := strLtAux a.data b.data

/-- Lexicographic order on strings (total, so `a ≤ b ↔ ¬ b < a`). -/
def strLeB (a b : String) : Bool := !(strLtB b a)

/-- The derived `Ord` on the Rust `Package` struct compares fields in
declaration order, name first, then version; the remaining fields do
not matter for distinct (name, version) keys, which is how repository
keys are formed. -/
def Package.le (a b : Package) : Bool :=
  strLtB a.name b.name || (a.name == b.name && strLeB a.version b.version)

/-! ## Repository

`Repository` (src/repository.rs) is not part of the excerpt.
Modelled from the spec: a mapping (PackageName, PackageVersion) →
Package with unique keys; `find_with_version_constraint(name, constraint)`
returns the set of packages with that name whose version satisfies the
constraint; evaluation is total and an unsatisfiable constraint yields
the empty set. -/
structure Repository where
  packages : List Package
deriving Repr

/-- Modelled from the spec: `Repository::find_with_version_constraint`.
Total lookup of all packages matching the name whose version satisfies
the (exact-version) constraint. -/
def Repository.findWithVersionConstraint (r : Repository) (name : PackageName)
    (constr : PackageVersion) : List Package :=
  r.packages.filter (fun p => p.name == name && p.version == constr)

/-! ## Tree (src/package/tree.rs)

`Tree { root: BTreeMap<Package, Tree> }`.  The BTreeMap is embedded as
an association list kept sorted by the derived package order, so that
iteration order (`keys()`, `values()`, `iter()`) matches the map's
sorted iteration order. -/

inductive Tree where
  | node : List (Package × Tree) → Tree
deriving Repr

/-- `Tree::new`. -/
def Tree.new : Tree := .node []

/-- The children association list of a tree node. -/
def Tree.root : Tree → List (Package × Tree)
  | .node cs => cs

/-- Sorted insertion into the association list embedding of
`BTreeMap<Package, Tree>`: keeps keys in `Package.le` order, replacing
an equal key as `BTreeMap::insert` does. -/
def insertSorted (k : Package) (v : Tree) :
    List (Package × Tree) → List (Package × Tree)
  | [] => [(k, v)]
  | (k', v') :: rest =>
    if k == k' then (k, v) :: rest
    else if Package.le k k' then (k, v) :: (k', v') :: rest
    else (k', v') :: insertSorted k v rest

/-- `BTreeMap::insert` on the tree root. -/
def Tree.insert (t : Tree) (k : Package) (v : Tree) : Tree :=
  .node (insertSorted k v t.root)

mutual

/-- `Tree::has_package`: true when a key at any depth has the same
*name* as `p` (the comparison is `k.name() == p.name()`). -/
def Tree.hasPackage : Tree → Package → Bool
  | .node cs, p => cs.any (fun kt => kt.1.name == p.name) || hasSearch cs p

/-- The `values().any(|t| t.has_package(p))` part of `has_package`. -/
def hasSearch : List (Package × Tree) → Package → Bool
  | [], _ => false
  | (_, sub) :: rest, p => Tree.hasPackage sub p || hasSearch rest p

end

mutual

/-- `find_package_depth` inside `Tree::package_depth_where`: if any key
of the current node satisfies `cmp`, return the current depth;
otherwise search the subtrees in key order, fully descending into each
before trying the next (`values().filter_map(..).next()`). -/
def findPackageDepth : Tree → Nat → (Package → Bool) → Option Nat
  | .node cs, current, cmp =>
    if cs.any (fun kt => cmp kt.1) then some current
    else depthSearch cs current cmp

/-- The `filter_map(..).next()` scan over the subtrees. -/
def depthSearch : List (Package × Tree) → Nat → (Package → Bool) → Option Nat
  | [], _, _ => none
  | (_, sub) :: rest, current, cmp =>
    match findPackageDepth sub (current + 1) cmp with
    | some d => some d
    | none => depthSearch rest current cmp

end

/-- `Tree::package_depth_where`. -/
def Tree.packageDepthWhere (t : Tree) (cmp : Package → Bool) : Option Nat :=
  findPackageDepth t 0 cmp

/-- `Tree::package_depth`: custom-compare search with full package
equality (`|k| k == p`). -/
def Tree.packageDepth (t : Tree) (p : Package) : Option Nat :=
  t.packageDepthWhere (fun k => k == p)

/-! ## Tree::add_package

The Rust recursion (the `add_package_tree` helper generated by
`mk_add_package_tree!`) may not terminate, so it is embedded with an
explicit recursion-depth fuel: `RRes.timeout` means the recursion
exceeded the given depth, exactly when the Rust stack would have grown
past that depth.  One unit of fuel is consumed per
`add_package_tree` call.

Key structural fact mirrored from the source: the duplicate check
`root.has_package(p)` reads `root`, which aliases the tree the method
was called on; that tree is only mutated by the final top-level
`insert`, after the whole recursion has finished, so every check during
one `add_package` call sees the tree as it was before the call. -/

/-- Result of a fallible, fueled computation: `ok`, an error
(`anyhow!` in the source), or fuel exhaustion (the Rust recursion went
deeper than the fuel allows). -/
inductive RRes (α : Type) where
  | ok : α → RRes α
  | err : String → RRes α
  | timeout : RRes α
deriving Repr

/-- Process the candidate packages of one dependency
(`pack.into_iter().map(|p| add_package_tree(&mut subtree, p.clone(), ..))`):
each candidate's own subtree is built by the recursive call `rec`, then
`(candidate, its subtree)` is inserted into the accumulating subtree. -/
def goCands (recur : Package → RRes Tree) :
    List Package → Tree → RRes Tree
  | [], subtree => .ok subtree
  | c :: cs, subtree =>
    match recur c with
    | .ok csub => goCands recur cs (subtree.insert c csub)
    | .err e => .err e
    | .timeout => .timeout

/-- Process the dependency list of a package (the
`get_all_dependencies` map in `add_package_tree`): resolve each
dependency against the repository, fail if any candidate's name is
already in `root`, otherwise recurse into every candidate. -/
def goDeps (recur : Package → RRes Tree) (repo : Repository) (root : Tree) :
    List Dependency → Tree → RRes Tree
  | [], subtree => .ok subtree
  | d :: ds, subtree =>
    let pack := repo.findWithVersionConstraint d.name d.constr
    if pack.any (fun p => root.hasPackage p) then
      .err "Duplicate version of some package found"
    else
      match goCands recur pack subtree with
      | .ok subtree' => goDeps recur repo root ds subtree'
      | .err e => .err e
      | .timeout => .timeout

/-- `add_package_tree(this, p, repo, root, ..)` without the final
insertion into `this`: builds and returns the subtree holding `p`'s
resolved dependencies (the caller inserts `(p, subtree)`).  `root` is
passed through unchanged, exactly as the `&mut root` alias is never
written during the recursion. -/
def addPackageTree (fuel : Nat) (p : Package) (repo : Repository)
    (root : Tree) : RRes Tree :=
  match fuel with
  | 0 => .timeout
  | fuel' + 1 =>
    goDeps (fun q => addPackageTree fuel' q repo root) repo root
      p.getAllDependencies Tree.new

/-- `Tree::add_package(self, p, repo, ..)`: the top-level macro
expansion with `this = root = self`.  Builds `p`'s dependency subtree
(checking duplicates against `self` as it was at entry) and finally
inserts `(p, subtree)` into `self`. -/
def Tree.addPackage (t : Tree) (fuel : Nat) (p : Package)
    (repo : Repository) : RRes Tree :=
  match goDeps (fun q => addPackageTree fuel q repo t) repo t
      p.getAllDependencies Tree.new with
  | .ok subtree => .ok (t.insert p subtree)
  | .err e => .err e
  | .timeout => .timeout

/-! ## Derived tree queries used in the statements -/

mutual

/-- All packages stored anywhere in the tree, in iteration order. -/
def Tree.flatten : Tree → List Package
  | .node cs => flattenList cs

/-- Flattening of a children list: each key followed by its subtree's
packages. -/
def flattenList : List (Package × Tree) → List Package
  | [] => []
  | (k, sub) :: rest => k :: (Tree.flatten sub ++ flattenList rest)

end

/-- Number of nodes in the tree carrying the given package name. -/
def Tree.countName (t : Tree) (n : PackageName) : Nat :=
  (t.flatten.filter (fun p => p.name == n)).length

/-- No element of the list occurs twice. -/
def namesUniqueList : List PackageName → Bool
  | [] => true
  | n :: ns => !(ns.contains n) && namesUniqueList ns

/-- Every package name occurs at most once across the whole tree. -/
def Tree.namesUnique (t : Tree) : Bool :=
  namesUniqueList (t.flatten.map Package.name)

/-- Whether a fallible tree construction succeeded with a tree
satisfying the given predicate. -/
def RRes.okSatisfies (r : RRes Tree) (f : Tree → Bool) : Bool :=
  match r with
  | .ok t => f t
  | _ => false

/-- The list of packages sitting at exactly depth `d` (the root node's
keys are at depth 0), left to right in map iteration order.  Used to
state the breadth-first "first occurrence" depth from the spec: the
BFS-first occurrence of a package is at the minimal depth at which it
occurs. -/
def Tree.packagesAtDepth : Tree → Nat → List Package
  | .node cs, 0 => cs.map Prod.fst
  | .node cs, d + 1 => (cs.map (fun kt => Tree.packagesAtDepth kt.2 d)).flatten

/-- Whether package `p` (full equality) occurs at depth `d`. -/
def Tree.occursAtDepth (t : Tree) (p : Package) (d : Nat) : Bool :=
  (t.packagesAtDepth d).any (fun q => q == p)

/-- Modelled from the spec: the depth of the first occurrence of `p`
in breadth-first order, root depth 0 — i.e. the least depth at which
`p` occurs, searched up to the given bound. -/
def Tree.bfsDepthUpTo (t : Tree) (p : Package) (bound : Nat) : Option Nat :=
  (List.range bound).find? (fun d => t.occursAtDepth p d)

/-! ## Concrete repositories for the tree properties -/

/-- Package b at version 1, no dependencies. -/
def pkgB1 : Package := { name := "b", version := "1" }

/-- Package b at version 2, no dependencies. -/
def pkgB2 : Package := { name := "b", version := "2" }

/-- Package a at version 1, depending on b at version 1. -/
def pkgA : Package := { name := "a", version := "1", runtimeDeps := [⟨"b", "1"⟩] }

/-- Package c at version 1, depending on b at version 2. -/
def pkgC : Package := { name := "c", version := "1", runtimeDeps := [⟨"b", "2"⟩] }

/-- The diamond target: t depends on a and on c. -/
def pkgT : Package :=
  { name := "t", version := "1", runtimeDeps := [⟨"a", "1"⟩, ⟨"c", "1"⟩] }

/-- The diamond repository of the spec's scenario 3: a depends on b=1,
c depends on b=2, both versions of b present. -/
def diamondRepo : Repository := ⟨[pkgT, pkgA, pkgC, pkgB1, pkgB2]⟩

/-- Mutually recursive package a: depends on b=1. -/
def cycA : Package := { name := "a", version := "1", runtimeDeps := [⟨"b", "1"⟩] }

/-- Mutually recursive package b: depends on a=1. -/
def cycB : Package := { name := "b", version := "1", runtimeDeps := [⟨"a", "1"⟩] }

/-- The mutually recursive repository: a depends on b and b depends
on a. -/
def cyclicRepo : Repository := ⟨[cycA, cycB]⟩

/-- `Tree::add_package` on the cyclic repository exhausts every
recursion-depth bound: the fueled embedding times out for every fuel. -/
def addPackageDivergesOnCyclicRepo : Prop :=
  ∀ fuel : Nat, Tree.new.addPackage fuel cycA cyclicRepo = .timeout

/-- Leaf package x for the depth-order example. -/
def dfsX : Package := { name := "x", version := "1" }

/-- Intermediate package m, depending on x. -/
def dfsM : Package := { name := "m", version := "1", runtimeDeps := [⟨"x", "1"⟩] }

/-- Package a, depending on m (so x sits at depth 3 below the root). -/
def dfsA : Package := { name := "a", version := "1", runtimeDeps := [⟨"m", "1"⟩] }

/-- Package c, depending on x directly (so x also sits at depth 2). -/
def dfsC : Package := { name := "c", version := "1", runtimeDeps := [⟨"x", "1"⟩] }

/-- Root package t for the depth-order example, depending on a and c. -/
def dfsT : Package :=
  { name := "t", version := "1", runtimeDeps := [⟨"a", "1"⟩, ⟨"c", "1"⟩] }

/-- Repository in which package x occurs at depth 3 under the a-branch
and at depth 2 under the c-branch of the tree rooted at t. -/
def dfsRepo : Repository := ⟨[dfsT, dfsA, dfsC, dfsM, dfsX]⟩

/-- A tree holding only b=1 at the root level (the result of adding
`pkgB1` to an empty tree). -/
def treeWithB1 : Tree := Tree.node [(pkgB1, Tree.new)]

/-! ## StagingStore (src/filestore/staging.rs)

Paths are lists of components relative to the store root.  The
on-disk state below the root and the in-memory index of the backing
`FileStoreImpl` are explicit.  `FileStoreImpl::load_from_path`
(src/filestore/util.rs) is not part of the excerpt and is modelled
from the spec: it records the file at the given path in the in-memory
index and fails when the path is not a file (spec invariant: "the
index never references a path that is not a file").

`tar::Archive::unpack` is library code; it is modelled from the tar
crate's documented behaviour: entries whose path contains a parent-dir
component are skipped (not unpacked, not an error), directory entries
create directories, other entries create regular files. -/

/-- One entry of a TAR archive: its path (components relative to the
unpack destination) and whether it is a directory entry. -/
structure TarEntry where
  path : List String
  isDir : Bool
deriving DecidableEq, Repr

/-- The staging store: the in-memory index of relative paths
(`FileStoreImpl`'s map) and the on-disk state under the store root. -/
structure StagingState where
  index : List (List String)
  files : List (List String)
  dirs : List (List String)
deriving DecidableEq, Repr

/-- The input stream, collapsed to the three cases the method
distinguishes: a chunk of the byte stream fails (`try_concat` errors),
the TAR is malformed (`entries()` or an entry's `path()` errors), or a
well-formed archive with its entry list. -/
inductive TarStreamInput where
  | ioError : String → TarStreamInput
  | malformed : String → TarStreamInput
  | archive : List TarEntry → TarStreamInput
deriving DecidableEq, Repr

/-- An entry path that escapes the store root: it contains a
parent-directory component. -/
def escapesRoot (p : List String) : Bool :=
  p.contains ".."

/-- `tar::Archive::unpack` (library behaviour): process entries in
order, skipping entries whose path escapes the destination; a
directory entry creates a directory, any other entry creates a regular
file at its path (replacing a directory there, and vice versa). -/
def tarUnpack (st : StagingState) : List TarEntry → StagingState
  | [] => st
  | e :: es =>
    if escapesRoot e.path then tarUnpack st es
    else if e.isDir then
      tarUnpack { st with
        dirs := if st.dirs.contains e.path then st.dirs else st.dirs ++ [e.path],
        files := st.files.filter (fun q => q ≠ e.path) } es
    else
      tarUnpack { st with
        files := if st.files.contains e.path then st.files else st.files ++ [e.path],
        dirs := st.dirs.filter (fun q => q ≠ e.path) } es

/-- Modelled from the spec: `FileStoreImpl::load_from_path`
(src/filestore/util.rs is not in the excerpt): loads the file at the
given relative path into the in-memory index, returning the loaded
artifact's path; fails when no regular file is at that path. -/
def loadFromPath (st : StagingState) (p : List String) :
    Except String (StagingState × List String) :=
  if st.files.contains p then
    .ok ({ st with index := st.index ++ [p] }, p)
  else
    .error "Loading from path failed"

/-- The `filter_map` + `collect::<Result<_>>` load phase over the
enumerated entry paths: paths that are directories on disk are
skipped, the rest are loaded into the index one by one; the first load
failure aborts with that error, keeping the index mutations already
made. -/
def loadLoop (st : StagingState) :
    List (List String) → List (List String) →
    Except String (List (List String)) × StagingState
  | [], acc => (.ok acc.reverse, st)
  | p :: ps, acc =>
    if st.dirs.contains p then loadLoop st ps acc
    else
      match loadFromPath st p with
      | .ok (st', art) => loadLoop st' ps (art :: acc)
      | .error e => (.error e, st)

/-- `StagingStore::write_files_from_tar_stream`: concatenate the
stream, enumerate the entry paths, unpack the archive to the store
root, then load every non-directory path into the index; any failure
yields a single composite error. -/
def writeFilesFromTarStream (st : StagingState) (input : TarStreamInput) :
    Except String (List (List String)) × StagingState :=
  match input with
  | .ioError msg => (.error msg, st)
  | .malformed msg => (.error msg, st)
  | .archive entries =>
    let outputs := entries.map TarEntry.path
    let st1 := tarUnpack st entries
    loadLoop st1 outputs []

/-- The empty staging store over an empty root. -/
def emptyStaging : StagingState := ⟨[], [], []⟩

/-! ## RunnableJob (src/job/runnable.rs)

`MergedStores` (src/filestore/merged.rs) is not part of the excerpt;
its `get_artifact_by_name_and_version` is modelled from the spec as an
abstract total lookup returning the (possibly empty) list of matching
artifacts, staging entries before release entries.  `ScriptBuilder`
(src/package/script.rs) is likewise outside the excerpt; the rendered
script, which `build_from_job` merely threads through, is carried as a
precomputed result on the job. -/

/-- An artifact in a file store; ordered by its path (the derived
order used by `a.sort()`). -/
structure Artifact where
  path : String
deriving DecidableEq, Repr

/-- `JobResource`: an artifact dependency or an environment variable. -/
inductive JobResource where
  | artifact : Artifact → JobResource
  | envVar : String → String → JobResource
deriving DecidableEq, Repr

/-- Modelled from the spec:
`MergedStores::get_artifact_by_name_and_version`, an abstract lookup
from (name, version) to the list of matching artifacts. -/
structure MergedStores where
  lookup : PackageName → PackageVersion → Except String (List Artifact)

/-- The derived order on `Artifact`: by path, byte-lexicographic. -/
def artLe (a b : Artifact) : Bool := strLeB a.path b.path

/-- `a.sort()` on a `Vec<Artifact>`: stable sort by the artifact
order (its path). -/
def sortArtifacts (l : List Artifact) : List Artifact :=
  l.insertionSort (fun a b => artLe a b = true)

/-- Result of resolving one dependency: the chosen resource, and
whether the multi-match warning was emitted. -/
structure ResourceOutcome where
  resource : JobResource
  warned : Bool
deriving DecidableEq, Repr

/-- `RunnableJob::build_resource`: parse the dependency (already done
in this embedding), query the merged stores; an empty result set is
an error; otherwise sort the matches, take the first, and warn when
there was more than one. -/
def buildResource (stores : MergedStores) (dep : Dependency) :
    Except String ResourceOutcome :=
  match stores.lookup dep.name dep.constr with
  | .error e => .error e
  | .ok a =>
    if a.isEmpty then
      .error "Cannot find dependency"
    else
      match sortArtifacts a with
      | [] => .error "unwrap on empty vec"
      | first :: _ => .ok ⟨.artifact first, decide (1 < a.length)⟩

/-- Resolve a dependency list in order, stopping at the first
failure. -/
def resolveAll (stores : MergedStores) :
    List Dependency → Except String (List JobResource)
  | [] => .ok []
  | d :: ds =>
    match buildResource stores d with
    | .error e => .error e
    | .ok r =>
      match resolveAll stores ds with
      | .error e => .error e
      | .ok rs => .ok (r.resource :: rs)

/-- A `Job` as consumed by `RunnableJob::build_from_job`: the package,
the image, and the outcome of rendering the script (the
`ScriptBuilder` call, which is outside the excerpt). -/
structure Job where
  uuid : Nat
  package : Package
  image : String
  scriptResult : Except String String

/-- A runnable job: all inputs resolved. -/
structure RunnableJob where
  uuid : Nat
  package : Package
  image : String
  script : String
  resources : List JobResource

/-- `RunnableJob::build_from_job`: render the script, resolve the
build and the runtime dependency lists (concurrently via
`FuturesUnordered`, so each group's list arrives in an arbitrary
completion order, modelled by the reordering functions `permB` and
`permR`), and append the runtime resources to the build resources. -/
def buildFromJob (job : Job) (stores : MergedStores)
    (permB permR : List JobResource → List JobResource) :
    Except String RunnableJob :=
  match job.scriptResult with
  | .error e => .error e
  | .ok script =>
    match resolveAll stores job.package.buildDeps,
        resolveAll stores job.package.runtimeDeps with
    | .error e, _ => .error e
    | .ok _, .error e => .error e
    | .ok b, .ok r =>
      .ok { uuid := job.uuid, package := job.package, image := job.image,
            script := script, resources := permB b ++ permR r }

/-- Example job for the runnable-job resource-shape property: one
build and one runtime dependency. -/
def exampleJob : Job :=
  { uuid := 1
    package := { name := "p", version := "1"
                 buildDeps := [⟨"x", "1"⟩]
                 runtimeDeps := [⟨"y", "1"⟩] }
    image := "img"
    scriptResult := .ok "s" }

/-- Example merged stores resolving every dependency to the single
artifact `a`. -/
def exampleStores : MergedStores := ⟨fun _ _ => .ok [⟨"a"⟩]⟩

/-- The runnable job `build_from_job` produces for `exampleJob` over
`exampleStores`. -/
def exampleRunnable : RunnableJob :=
  { uuid := 1
    package := exampleJob.package
    image := "img"
    script := "s"
    resources := [.artifact ⟨"a"⟩, .artifact ⟨"a"⟩] }

/-! ## db query subcommands (src/commands/db.rs)

Rows are abstracted to their integer primary keys; a query result is
the list of keys the table holds.  `order_by(id.desc()).limit(n)`
followed by `load` is: sort descending, take `n`.  The `artifacts`,
`submits` and `jobs` subcommands then call `.rev()` on the loaded
window before display; `releases` displays the loaded window
directly. -/

/-- `i64::MAX`. -/
def i64Max : Int := 2 ^ 63 - 1

/-- `get_limit`: the CLI limit or the configured default; `0` maps to
`i64::MAX`, anything else goes through `i64::try_from`. -/
def getLimit (cliLimit : Option Nat) (defaultLimit : Nat) : Except String Int :=
  let limit := cliLimit.getD defaultLimit
  if limit == 0 then .ok i64Max
  else if (limit : Int) ≤ i64Max then .ok (limit : Int)
  else .error "out of range integral type conversion attempted"

/-- `order_by(id.desc()).limit(n)` + `load`: the ids sorted
descending, truncated to the limit. -/
def limitWindowDesc (rows : List Nat) (limit : Int) : List Nat :=
  (rows.insertionSort (fun a b => b ≤ a)).take limit.toNat

/-- The row window the `artifacts` subcommand displays:
the limited descending window reversed (`.rev()`). -/
def artifactsDisplayed (rows : List Nat) (limit : Int) : List Nat :=
  (limitWindowDesc rows limit).reverse

/-- The row window the `submits` subcommand displays: reversed. -/
def submitsDisplayed (rows : List Nat) (limit : Int) : List Nat :=
  (limitWindowDesc rows limit).reverse

/-- The row window the `jobs` subcommand displays: reversed. -/
def jobsDisplayed (rows : List Nat) (limit : Int) : List Nat :=
  (limitWindowDesc rows limit).reverse

/-- The row window the `releases` subcommand displays: the limited
descending window as loaded — `releases` has no `.rev()`. -/
def releasesDisplayed (rows : List Nat) (limit : Int) : List Nat :=
  limitWindowDesc rows limit

/-! ## connect_to_endpoints (src/commands/endpoint.rs) -/

/-- The per-endpoint descriptor from the configuration. -/
structure EndpointCfg where
  uri : String
deriving DecidableEq, Repr

/-- The docker section of the configuration: the endpoint map (name →
descriptor) and the globally required image and version sets. -/
structure DockerConfig where
  endpoints : List (String × EndpointCfg)
  images : List String
  dockerVersions : List String
  dockerApiVersions : List String
deriving DecidableEq, Repr

/-- The configuration, reduced to its docker section. -/
structure Configuration where
  docker : DockerConfig
deriving DecidableEq, Repr

/-- One built `EndpointConfiguration`. -/
structure EndpointConfiguration where
  endpointName : String
  endpoint : EndpointCfg
  requiredImages : List String
  requiredDockerVersions : List String
  requiredDockerApiVersions : List String
deriving DecidableEq, Repr

/-- `connect_to_endpoints`: build an `EndpointConfiguration` for every
configured endpoint whose name appears in the requested list (the
final `setup_endpoints` connection step lives outside the excerpt).
Requested names with no configured endpoint are simply not matched by
the filter; no error is produced for them. -/
def connectToEndpoints (config : Configuration)
    (endpointNames : List String) : List EndpointConfiguration :=
  (config.docker.endpoints.filter
      (fun p => endpointNames.contains p.1)).map
    (fun p =>
      { endpointName := p.1
        endpoint := p.2
        requiredImages := config.docker.images
        requiredDockerVersions := config.docker.dockerVersions
        requiredDockerApiVersions := config.docker.dockerApiVersions })

/-! ## Helper lemmas -/

theorem any_flatten {α : Type} (ls : List (List α)) (p : α → Bool) :
    ls.flatten.any p = ls.any (fun l => l.any p) := by
  induction ls with
  | nil => rfl
  | cons l ls ih => simp [List.any_append, ih]

theorem flattenList_any (cs : List (Package × Tree)) (cmp : Package → Bool) :
    (flattenList cs).any cmp
      = cs.any (fun kt => cmp kt.1 || (kt.2.flatten).any cmp) := by
  induction cs with
  | nil => rfl
  | cons kt rest ih =>
    obtain ⟨k, sub⟩ := kt
    simp [flattenList, List.any_append, ih, Bool.or_assoc]

theorem hasSearch_flatten :
    (cs : List (Package × Tree)) → (p : Package) →
    (cs.any (fun kt => kt.1.name == p.name) || hasSearch cs p)
      = (flattenList cs).any (fun q => q.name == p.name)
  | [], p => by simp [hasSearch, flattenList]
  | (k, Tree.node cs2) :: rest, p => by
    have ih1 := hasSearch_flatten cs2 p
    have ih2 := hasSearch_flatten rest p
    simp only [List.any_cons, hasSearch, Tree.hasPackage, flattenList,
      Tree.flatten, List.any_append] at ih1 ih2 ⊢
    rw [Bool.eq_iff_iff] at ih1 ih2 ⊢
    simp only [Bool.or_eq_true] at ih1 ih2 ⊢
    tauto
termination_by cs _ => sizeOf cs

theorem hasPackage_flatten (t : Tree) (p : Package) :
    t.hasPackage p = (t.flatten).any (fun q => q.name == p.name) := by
  obtain ⟨cs⟩ := t
  have h := hasSearch_flatten cs p
  simpa [Tree.hasPackage, Tree.flatten] using h

theorem any_or_of_left_false {α : Type} (l : List α) (f g : α → Bool)
    (h : l.any f = false) :
    l.any (fun x => f x || g x) = l.any g := by
  induction l with
  | nil => rfl
  | cons x xs ih =>
    simp only [List.any_cons, Bool.or_eq_false_iff] at h
    simp [List.any_cons, h.1, ih h.2]

mutual

theorem findPackageDepth_isSome :
    (t : Tree) → (cur : Nat) → (cmp : Package → Bool) →
    (findPackageDepth t cur cmp).isSome = (t.flatten).any cmp
  | Tree.node cs, cur, cmp => by
    have ih := depthSearch_isSome cs cur cmp
    by_cases h : cs.any (fun kt => cmp kt.1) = true
    · have hall : (cs.any fun kt => cmp kt.1 || (kt.2.flatten).any cmp)
          = true := by
        obtain ⟨x, hx, hfx⟩ := List.any_eq_true.mp h
        exact List.any_eq_true.mpr ⟨x, hx, by simp [hfx]⟩
      simp [findPackageDepth, h, Tree.flatten, flattenList_any, hall]
    · rw [Bool.not_eq_true] at h
      simp only [findPackageDepth, h, Bool.false_eq_true, if_false,
        Tree.flatten, flattenList_any, ih]
      exact (any_or_of_left_false cs _ _ h).symm
  termination_by t _ _ => sizeOf t

theorem depthSearch_isSome :
    (cs : List (Package × Tree)) → (cur : Nat) → (cmp : Package → Bool) →
    (depthSearch cs cur cmp).isSome
      = cs.any (fun kt => (kt.2.flatten).any cmp)
  | [], _, _ => rfl
  | (k, sub) :: rest, cur, cmp => by
    have ih1 := findPackageDepth_isSome sub (cur + 1) cmp
    have ih2 := depthSearch_isSome rest cur cmp
    cases h : findPackageDepth sub (cur + 1) cmp with
    | some d =>
      rw [h] at ih1
      simp [depthSearch, h, ← ih1]
    | none =>
      rw [h] at ih1
      simp [depthSearch, h, ih2, ← ih1]
  termination_by cs _ _ => sizeOf cs

end

mutual

theorem findPackageDepth_sound :
    (t : Tree) → (cur : Nat) → (cmp : Package → Bool) → (d : Nat) →
    findPackageDepth t cur cmp = some d →
    cur ≤ d ∧ (t.packagesAtDepth (d - cur)).any cmp = true
  | Tree.node cs, cur, cmp, d => by
    intro h
    by_cases hk : cs.any (fun kt => cmp kt.1) = true
    · simp only [findPackageDepth, hk, if_true, Option.some.injEq] at h
      subst h
      simpa [Tree.packagesAtDepth, List.any_map, Function.comp] using hk
    · rw [Bool.not_eq_true] at hk
      simp only [findPackageDepth, hk, Bool.false_eq_true, if_false] at h
      obtain ⟨hle, hany⟩ := depthSearch_sound cs cur cmp d h
      refine ⟨Nat.le_of_succ_le hle, ?_⟩
      have hstep : d - cur = (d - (cur + 1)) + 1 := by omega
      rw [hstep]
      have hgoal : Tree.packagesAtDepth (Tree.node cs) ((d - (cur + 1)) + 1)
          = (cs.map (fun kt =>
              Tree.packagesAtDepth kt.2 (d - (cur + 1)))).flatten := rfl
      rw [hgoal, any_flatten]
      obtain ⟨kt, hm, hk2⟩ := List.any_eq_true.mp hany
      exact List.any_eq_true.mpr ⟨_, List.mem_map_of_mem _ hm, hk2⟩
  termination_by t _ _ _ => sizeOf t

theorem depthSearch_sound :
    (cs : List (Package × Tree)) → (cur : Nat) → (cmp : Package → Bool) →
    (d : Nat) → depthSearch cs cur cmp = some d →
    cur + 1 ≤ d
      ∧ cs.any (fun kt =>
          (kt.2.packagesAtDepth (d - (cur + 1))).any cmp) = true
  | [], _, _, _ => by intro h; cases h
  | (k, sub) :: rest, cur, cmp, d => by
    intro h
    cases hs : findPackageDepth sub (cur + 1) cmp with
    | some d' =>
      simp only [depthSearch, hs, Option.some.injEq] at h
      subst h
      obtain ⟨hle, hany⟩ := findPackageDepth_sound sub (cur + 1) cmp d' hs
      exact ⟨hle, by simp [hany]⟩
    | none =>
      simp only [depthSearch, hs] at h
      obtain ⟨hle, hany⟩ := depthSearch_sound rest cur cmp d h
      exact ⟨hle, by simp [hany]⟩
  termination_by cs _ _ _ => sizeOf cs

end

/-! ## Claim theorems -/

theorem addPackageTree_step (n : Nat) (p c : Package) (repo : Repository)
    (root : Tree) (d : Dependency)
    (hdeps : p.getAllDependencies = [d])
    (hfind : repo.findWithVersionConstraint d.name d.constr = [c])
    (hroot : root.hasPackage c = false)
    (h : addPackageTree n c repo root = .timeout) :
    addPackageTree (n + 1) p repo root = .timeout := by
  rw [addPackageTree, hdeps]
  simp [goDeps, goCands, hfind, hroot, h]

theorem addPackage_step (fuel : Nat) (p c : Package) (repo : Repository)
    (t : Tree) (d : Dependency)
    (hdeps : p.getAllDependencies = [d])
    (hfind : repo.findWithVersionConstraint d.name d.constr = [c])
    (hroot : t.hasPackage c = false)
    (h : addPackageTree fuel c repo t = .timeout) :
    t.addPackage fuel p repo = .timeout := by
  unfold Tree.addPackage
  rw [hdeps]
  simp [goDeps, goCands, hfind, hroot, h]

theorem cyclic_timeout (fuel : Nat) :
    addPackageTree fuel cycA cyclicRepo Tree.new = .timeout
    ∧ addPackageTree fuel cycB cyclicRepo Tree.new = .timeout := by
  induction fuel with
  | zero => exact ⟨rfl, rfl⟩
  | succ n ih =>
    exact ⟨addPackageTree_step n cycA cycB cyclicRepo Tree.new ⟨"b", "1"⟩
        rfl rfl rfl ih.2,
      addPackageTree_step n cycB cycA cyclicRepo Tree.new ⟨"a", "1"⟩
        rfl rfl rfl ih.1⟩

/-- C1, counterexample: building the tree for the diamond target `t`
(a depends on b=1, c depends on b=2, both in the repository) does not
fail: it succeeds and the resulting tree holds the name `b` twice, once
per version — the duplicate guard never fires within a single
construction because the root tree is only populated by the final
insert. -/
theorem c1_diamond_builds_duplicate :
    (Tree.new.addPackage 10 pkgT diamondRepo).okSatisfies
      (fun T => !T.namesUnique && T.countName "b" == 2) = true := by
  rfl

/-- C1, amended: the duplicate guard compares dependency candidates
against the tree as it was when `add_package` was called (the root is
only mutated by the final insert), so a candidate whose name is already
in the pre-call tree fails the construction with the duplicate error;
duplicates arising between subtrees of one construction are not
detected. -/
theorem c1_duplicate_guard_pre_call (t : Tree) (p : Package)
    (repo : Repository) (fuel : Nat) (d : Dependency) (ds : List Dependency)
    (hdeps : p.getAllDependencies = d :: ds)
    (hdup : (repo.findWithVersionConstraint d.name d.constr).any
        (fun q => t.hasPackage q) = true) :
    t.addPackage fuel p repo
      = .err "Duplicate version of some package found" := by
  unfold Tree.addPackage
  rw [hdeps]
  simp [goDeps, hdup]

/-- C1, witness: a tree already holding b=1 rejects adding a package
that depends on b. -/
theorem c1_duplicate_guard_pre_call_witness :
    treeWithB1.addPackage 5 pkgA diamondRepo
      = .err "Duplicate version of some package found" :=
  c1_duplicate_guard_pre_call treeWithB1 pkgA diamondRepo 5 ⟨"b", "1"⟩ []
    rfl rfl

/-- C4, counterexample: on the mutually recursive repository
(a depends on b, b depends on a) `add_package` exceeds every
recursion-depth bound: the fueled embedding times out for every fuel. -/
theorem c4_cyclic_diverges : addPackageDivergesOnCyclicRepo := by
  intro fuel
  exact addPackage_step fuel cycA cycB cyclicRepo Tree.new ⟨"b", "1"⟩
    rfl rfl rfl (cyclic_timeout fuel).2

/-- C4, amended: `add_package` does not terminate on mutually
recursive dependency specifications: starting from either package of
the cyclic repository, the recursion revisits the two names forever
(the duplicate guard checks only the pre-call tree, which stays empty),
exhausting any recursion-depth bound. -/
theorem c4_cyclic_never_terminates (fuel : Nat) :
    Tree.new.addPackage fuel cycA cyclicRepo = .timeout
    ∧ Tree.new.addPackage fuel cycB cyclicRepo = .timeout :=
  ⟨addPackage_step fuel cycA cycB cyclicRepo Tree.new ⟨"b", "1"⟩
      rfl rfl rfl (cyclic_timeout fuel).2,
    addPackage_step fuel cycB cycA cyclicRepo Tree.new ⟨"a", "1"⟩
      rfl rfl rfl (cyclic_timeout fuel).1⟩

/-- C3, amended: `package_depth(p).is_some()` implies
`has_package(p)`; the converse fails because `has_package` compares by
name only while `package_depth` requires full package equality. -/
theorem c3_depth_implies_has (t : Tree) (p : Package)
    (h : (t.packageDepth p).isSome = true) : t.hasPackage p = true := by
  rw [Tree.packageDepth, Tree.packageDepthWhere,
    findPackageDepth_isSome] at h
  obtain ⟨q, hq, hqp⟩ := List.any_eq_true.mp h
  rw [hasPackage_flatten]
  refine List.any_eq_true.mpr ⟨q, hq, ?_⟩
  have hq' : q = p := by simpa using hqp
  simp [hq']

/-- C3, witness: for b=1 in the singleton tree, the depth is defined
and `has_package` agrees. -/
theorem c3_depth_implies_has_witness :
    (treeWithB1.packageDepth pkgB1).isSome = true
    ∧ treeWithB1.hasPackage pkgB1 = true :=
  ⟨rfl, c3_depth_implies_has treeWithB1 pkgB1 rfl⟩

/-- C8, counterexample: in the tree built for `dfsT`, package x occurs
at depth 2 (under c) and at depth 3 (under a); breadth-first first
occurrence would be depth 2, but `package_depth` fully descends the
earlier subtree first and returns 3. -/
theorem c8_dfs_not_bfs :
    (Tree.new.addPackage 10 dfsT dfsRepo).okSatisfies
      (fun T => decide (T.packageDepth dfsX = some 3)
        && decide (T.bfsDepthUpTo dfsX 10 = some 2)) = true := by
  rfl

/-- C8, amended: `package_depth(p)` is `None` exactly when `p` (by
full equality) is absent; when it returns `Some d`, then `p` really
occurs at depth `d` (root depth 0) — `d` is the depth of the first
occurrence in the depth-first search order, which need not be the
least (BFS-first) depth of `p`. -/
theorem c8_depth_sound_and_total (t : Tree) (p : Package) :
    (t.packageDepth p = none ↔ p ∉ t.flatten)
    ∧ ∀ d : Nat, t.packageDepth p = some d → t.occursAtDepth p d = true := by
  constructor
  · rw [Tree.packageDepth, Tree.packageDepthWhere]
    have hiff := findPackageDepth_isSome t 0 (fun k => k == p)
    constructor
    · intro h hmem
      rw [h] at hiff
      have : t.flatten.any (fun k => k == p) = true :=
        List.any_eq_true.mpr ⟨p, hmem, by simp⟩
      rw [this] at hiff
      cases hiff
    · intro hmem
      have hfalse : t.flatten.any (fun k => k == p) = false := by
        rw [List.any_eq_false]
        intro q hq
        simp only [beq_iff_eq]
        intro hqp
        exact hmem (hqp ▸ hq)
      rw [hfalse] at hiff
      exact Option.not_isSome_iff_eq_none.mp (by simp [hiff])
  · intro d h
    rw [Tree.packageDepth, Tree.packageDepthWhere] at h
    have := (findPackageDepth_sound t 0 (fun k => k == p) d h).2
    simpa [Tree.occursAtDepth] using this

/-- C8, witness: in the singleton tree, b=1 has depth 0 and occurs at
depth 0; b=2 is absent and has no depth. -/
theorem c8_depth_sound_witness :
    (treeWithB1.packageDepth pkgB1 = some 0
      → treeWithB1.occursAtDepth pkgB1 0 = true)
    ∧ (treeWithB1.packageDepth pkgB2 = none ↔ pkgB2 ∉ treeWithB1.flatten) :=
  ⟨(c8_depth_sound_and_total treeWithB1 pkgB1).2 0,
    (c8_depth_sound_and_total treeWithB1 pkgB2).1⟩

theorem contains_iff {α : Type} [BEq α] [LawfulBEq α] (l : List α) (a : α) :
    l.contains a = true ↔ a ∈ l :=
  List.elem_iff

theorem filter_map_comm {α β : Type} (f : α → β) (q : β → Bool)
    (l : List α) :
    (l.map f).filter q = (l.filter (fun x => q (f x))).map f := by
  induction l with
  | nil => rfl
  | cons x xs ih => by_cases h : q (f x) = true <;> simp [h, ih]

theorem tarUnpack_index (es : List TarEntry) (st : StagingState) :
    (tarUnpack st es).index = st.index := by
  induction es generalizing st with
  | nil => rfl
  | cons e es ih =>
    by_cases h1 : escapesRoot e.path = true
    · simp [tarUnpack, h1, ih]
    · rw [Bool.not_eq_true] at h1
      by_cases h2 : e.isDir = true
      · simp [tarUnpack, h1, h2, ih]
      · rw [Bool.not_eq_true] at h2
        simp [tarUnpack, h1, h2, ih]

theorem tarUnpack_mem_frame (es : List TarEntry) (st : StagingState)
    (p : List String) (hp : p ∉ es.map TarEntry.path) :
    (p ∈ (tarUnpack st es).files ↔ p ∈ st.files)
    ∧ (p ∈ (tarUnpack st es).dirs ↔ p ∈ st.dirs) := by
  induction es generalizing st with
  | nil => exact ⟨Iff.rfl, Iff.rfl⟩
  | cons e es ih =>
    simp only [List.map_cons, List.mem_cons, not_or] at hp
    obtain ⟨hne, hrest⟩ := hp
    by_cases h1 : escapesRoot e.path = true
    · simpa [tarUnpack, h1] using ih _ hrest
    · rw [Bool.not_eq_true] at h1
      by_cases h2 : e.isDir = true
      · have := ih { st with
          dirs := if st.dirs.contains e.path then st.dirs
            else st.dirs ++ [e.path],
          files := st.files.filter (fun q => q ≠ e.path) } hrest
        rw [tarUnpack, if_neg (by simp [h1]), if_pos h2]
        refine ⟨this.1.trans ?_, this.2.trans ?_⟩
        · simp [List.mem_filter, hne]
        · by_cases hc : st.dirs.contains e.path = true
          · have hm : e.path ∈ st.dirs := (contains_iff _ _).mp hc
            simp [hc, hm]
          · have hm : e.path ∉ st.dirs :=
              fun hmm => hc ((contains_iff _ _).mpr hmm)
            simp [hc, hm, hne]
      · rw [Bool.not_eq_true] at h2
        have := ih { st with
          files := if st.files.contains e.path then st.files
            else st.files ++ [e.path],
          dirs := st.dirs.filter (fun q => q ≠ e.path) } hrest
        rw [tarUnpack, if_neg (by simp [h1]), if_neg (by simp [h2])]
        refine ⟨this.1.trans ?_, this.2.trans ?_⟩
        · by_cases hc : st.files.contains e.path = true
          · have hm : e.path ∈ st.files := (contains_iff _ _).mp hc
            simp [hc, hm]
          · have hm : e.path ∉ st.files :=
              fun hmm => hc ((contains_iff _ _).mpr hmm)
            simp [hc, hm, hne]
        · simp [List.mem_filter, hne]

theorem tarUnpack_places (es : List TarEntry) (st : StagingState)
    (hnd : (es.map TarEntry.path).Nodup)
    (hesc : ∀ e ∈ es, escapesRoot e.path = false) :
    ∀ e ∈ es,
      (e.isDir = true → e.path ∈ (tarUnpack st es).dirs
        ∧ e.path ∉ (tarUnpack st es).files)
      ∧ (e.isDir = false → e.path ∈ (tarUnpack st es).files
        ∧ e.path ∉ (tarUnpack st es).dirs) := by
  induction es generalizing st with
  | nil => intro e he; cases he
  | cons e0 es ih =>
    intro e he
    simp only [List.map_cons, List.nodup_cons] at hnd
    obtain ⟨hnotin, hndrest⟩ := hnd
    have hesc0 : escapesRoot e0.path = false := hesc e0 (by simp)
    rcases List.mem_cons.mp he with rfl | hin
    · by_cases h2 : e.isDir = true
      · rw [tarUnpack, if_neg (by simp [hesc0]), if_pos h2]
        have hframe := tarUnpack_mem_frame es
          { st with
            dirs := if st.dirs.contains e.path then st.dirs
              else st.dirs ++ [e.path],
            files := st.files.filter (fun q => q ≠ e.path) } e.path hnotin
        refine ⟨fun _ => ⟨hframe.2.mpr ?_, fun hmem => ?_⟩,
          fun hcontra => by simp [h2] at hcontra⟩
        · by_cases hc : st.dirs.contains e.path = true
          · have hm : e.path ∈ st.dirs := (contains_iff _ _).mp hc
            simp [hc, hm]
          · have hm : e.path ∉ st.dirs :=
              fun hmm => hc ((contains_iff _ _).mpr hmm)
            simp [hc, hm]
        · have := hframe.1.mp hmem
          simp [List.mem_filter] at this
      · rw [Bool.not_eq_true] at h2
        rw [tarUnpack, if_neg (by simp [hesc0]), if_neg (by simp [h2])]
        have hframe := tarUnpack_mem_frame es
          { st with
            files := if st.files.contains e.path then st.files
              else st.files ++ [e.path],
            dirs := st.dirs.filter (fun q => q ≠ e.path) } e.path hnotin
        refine ⟨fun hcontra => by simp [h2] at hcontra,
          fun _ => ⟨hframe.1.mpr ?_, fun hmem => ?_⟩⟩
        · by_cases hc : st.files.contains e.path = true
          · have hm : e.path ∈ st.files := (contains_iff _ _).mp hc
            simp [hc, hm]
          · have hm : e.path ∉ st.files :=
              fun hmm => hc ((contains_iff _ _).mpr hmm)
            simp [hc, hm]
        · have := hframe.2.mp hmem
          simp [List.mem_filter] at this
    · have hescrest : ∀ x ∈ es, escapesRoot x.path = false :=
        fun x hx => hesc x (List.mem_cons_of_mem _ hx)
      by_cases h2 : e0.isDir = true
      · rw [tarUnpack, if_neg (by simp [hesc0]), if_pos h2]
        exact ih _ hndrest hescrest e hin
      · rw [Bool.not_eq_true] at h2
        rw [tarUnpack, if_neg (by simp [hesc0]), if_neg (by simp [h2])]
        exact ih _ hndrest hescrest e hin

theorem loadLoop_spec (ps : List (List String)) (st : StagingState)
    (acc : List (List String))
    (h : ∀ p ∈ ps, st.dirs.contains p = true ∨ st.files.contains p = true) :
    loadLoop st ps acc
      = (.ok (acc.reverse ++ ps.filter (fun p => !(st.dirs.contains p))),
        { st with
          index := st.index
            ++ ps.filter (fun p => !(st.dirs.contains p)) }) := by
  induction ps generalizing st acc with
  | nil => simp [loadLoop]
  | cons p ps ih =>
    by_cases hd : st.dirs.contains p = true
    · rw [loadLoop, if_pos hd]
      rw [ih st acc (fun q hq => h q (List.mem_cons_of_mem _ hq))]
      have hfil : List.filter (fun q => !st.dirs.contains q) (p :: ps)
          = List.filter (fun q => !st.dirs.contains q) ps := by
        rw [List.filter_cons, hd]
        simp
      rw [hfil]
    · have hf : st.files.contains p = true :=
        (h p (List.mem_cons_self _ _)).resolve_left hd
      rw [Bool.not_eq_true] at hd
      have hstep : loadLoop st (p :: ps) acc
          = loadLoop { st with index := st.index ++ [p] } ps (p :: acc) := by
        rw [loadLoop, if_neg (fun hc => by rw [hc] at hd; cases hd),
          loadFromPath, if_pos hf]
      rw [hstep]
      rw [ih { st with index := st.index ++ [p] } (p :: acc)
        (fun q hq => h q (List.mem_cons_of_mem _ hq))]
      have hfil : List.filter (fun q => !st.dirs.contains q) (p :: ps)
          = p :: List.filter (fun q => !st.dirs.contains q) ps := by
        rw [List.filter_cons, hd]
        simp
      rw [hfil]
      simp [List.append_assoc]

/-- C7, counterexample: ingesting the archive `[new]` into a store
whose index already holds `old` succeeds, returns `[new]`, but the
index then holds both `old` and `new` — not exactly the returned
paths. -/
theorem c7_index_not_exact :
    writeFilesFromTarStream ⟨[["old"]], [["old"]], []⟩
        (.archive [⟨["new"], false⟩])
      = (.ok [["new"]], ⟨[["old"], ["new"]], [["old"], ["new"]], []⟩)
    ∧ ([["old"], ["new"]] : List (List String)) ≠ [["new"]] :=
  ⟨rfl, by decide⟩

/-- C7, amended: on success (for an archive whose entry paths are
distinct and stay within the root), the returned list is exactly the
archive's non-directory entry paths, each returned path is a regular
file under the store root, and the returned paths are appended to the
in-memory index (which keeps whatever it indexed before the call). -/
theorem c7_success_appends_index (st : StagingState)
    (entries : List TarEntry) (out : List (List String))
    (st' : StagingState)
    (hnd : (entries.map TarEntry.path).Nodup)
    (hesc : ∀ e ∈ entries, escapesRoot e.path = false)
    (heq : writeFilesFromTarStream st (.archive entries) = (.ok out, st')) :
    out = (entries.filter (fun e => !e.isDir)).map TarEntry.path
    ∧ st'.index = st.index ++ out
    ∧ ∀ p ∈ out, p ∈ st'.files := by
  have hplaces := tarUnpack_places entries st hnd hesc
  have hload : ∀ p ∈ entries.map TarEntry.path,
      (tarUnpack st entries).dirs.contains p = true
      ∨ (tarUnpack st entries).files.contains p = true := by
    intro p hp
    obtain ⟨e, he, rfl⟩ := List.mem_map.mp hp
    by_cases hD : e.isDir = true
    · exact Or.inl ((contains_iff _ _).mpr ((hplaces e he).1 hD).1)
    · rw [Bool.not_eq_true] at hD
      exact Or.inr ((contains_iff _ _).mpr ((hplaces e he).2 hD).1)
  rw [writeFilesFromTarStream] at heq
  rw [loadLoop_spec _ _ _ hload] at heq
  simp only [List.reverse_nil, List.nil_append, Prod.mk.injEq,
    Except.ok.injEq] at heq
  obtain ⟨hout, hst⟩ := heq
  have hfcong : (entries.map TarEntry.path).filter
      (fun p => !((tarUnpack st entries).dirs.contains p))
      = (entries.filter (fun e => !e.isDir)).map TarEntry.path := by
    rw [filter_map_comm]
    congr 1
    apply List.filter_congr
    intro e he
    by_cases hD : e.isDir = true
    · have hmem : e.path ∈ (tarUnpack st entries).dirs :=
        ((hplaces e he).1 hD).1
      have hc : (tarUnpack st entries).dirs.contains e.path = true :=
        (contains_iff (tarUnpack st entries).dirs e.path).mpr hmem
      simp [hD, hc, hmem]
    · rw [Bool.not_eq_true] at hD
      have hmem : e.path ∉ (tarUnpack st entries).dirs :=
        ((hplaces e he).2 hD).2
      have hcf : (tarUnpack st entries).dirs.contains e.path = false := by
        by_contra hc
        rw [Bool.not_eq_false] at hc
        exact hmem ((contains_iff (tarUnpack st entries).dirs e.path).mp hc)
      simp [hD, hcf, hmem]
  refine ⟨by rw [← hout, hfcong], ?_, ?_⟩
  · rw [← hst, ← hout]
    simp [tarUnpack_index]
  · intro p hp
    rw [← hout, hfcong] at hp
    obtain ⟨e, he, rfl⟩ := List.mem_map.mp hp
    rw [List.mem_filter] at he
    have hD : e.isDir = false := by
      have := he.2
      simpa using this
    have : e.path ∈ (tarUnpack st entries).files :=
      ((hplaces e he.1).2 hD).1
    rw [← hst]
    simpa using this

/-- C7, witness: a fresh store ingesting the two-entry archive
`[dir d, file f]` returns exactly `[f]`, appends it to the (empty)
index, and `f` is a file under the root. -/
theorem c7_success_appends_index_witness :
    (([⟨["f"], false⟩] : List TarEntry).map TarEntry.path).Nodup
    ∧ ([["f"]] : List (List String))
        = (([⟨["f"], false⟩] : List TarEntry).filter
            (fun e => !e.isDir)).map TarEntry.path := by
  constructor
  · decide
  · exact (c7_success_appends_index emptyStaging [⟨["f"], false⟩]
      [["f"]] ⟨[["f"]], [["f"]], []⟩ (by decide) (by decide) rfl).1

/-- C2, counterexample: on the archive `[good, ../evil]` the method
errors, yet the path `good` has already been added to the in-memory
index, and the archive was unpacked (the file `good` is on disk) —
no rejection happened before unpack. -/
theorem c2_partial_index_on_error :
    writeFilesFromTarStream emptyStaging
        (.archive [⟨["good"], false⟩, ⟨["..", "evil"], false⟩])
      = (.error "Loading from path failed", ⟨[["good"]], [["good"]], []⟩)
    ∧ ([["good"]] : List (List String)) ≠ [] := by
  exact ⟨rfl, by decide⟩

/-- C2, amended: the operation is atomic only for errors that occur
before the load phase: a failing stream chunk or a malformed TAR yield
a single error and leave the store (index, files, directories)
completely unchanged. -/
theorem c2_stream_and_tar_errors_atomic (st : StagingState) (msg : String) :
    writeFilesFromTarStream st (.ioError msg) = (.error msg, st)
    ∧ writeFilesFromTarStream st (.malformed msg) = (.error msg, st) :=
  ⟨rfl, rfl⟩

/-- C3, counterexample: the tree obtained by adding b=1 to an empty
tree reports `has_package` true for b=2 (name-only comparison) while
`package_depth` for b=2 is `None` (full-equality comparison). -/
theorem c3_name_vs_full_equality :
    Tree.new.addPackage 2 pkgB1 ⟨[pkgB1]⟩ = .ok treeWithB1
    ∧ treeWithB1.hasPackage pkgB2 = true
    ∧ treeWithB1.packageDepth pkgB2 = none := by
  exact ⟨rfl, rfl, rfl⟩

/-- C10: `connect_to_endpoints` builds an endpoint configuration
exactly for the names in both the requested list and the configured
endpoint map; requested names missing from the configuration are
silently dropped by the filter. -/
theorem c10_endpoint_intersection (config : Configuration)
    (endpointNames : List String) (n : String) :
    (n ∈ (connectToEndpoints config endpointNames).map
        EndpointConfiguration.endpointName)
      ↔ (n ∈ config.docker.endpoints.map Prod.fst
          ∧ endpointNames.contains n = true) := by
  simp only [connectToEndpoints, List.map_map, List.mem_map,
    List.mem_filter, Function.comp]
  constructor
  · rintro ⟨⟨nm, cfg⟩, ⟨hmem, hcont⟩, rfl⟩
    exact ⟨⟨(nm, cfg), hmem, rfl⟩, hcont⟩
  · rintro ⟨⟨⟨nm, cfg⟩, hmem, rfl⟩, hcont⟩
    exact ⟨(nm, cfg), ⟨hmem, hcont⟩, rfl⟩

theorem charLtB_lt {a b : Char} : charLtB a b = true ↔ a.toNat < b.toNat := by
  simp [charLtB]

theorem strLtAux_asymm : ∀ (as bs : List Char),
    strLtAux as bs = true → strLtAux bs as = false
  | [], [] => by intro h; cases h
  | [], _ :: _ => fun _ => rfl
  | _ :: _, [] => by intro h; cases h
  | a :: as, b :: bs => by
    intro h
    rw [strLtAux] at h
    by_cases hab : charLtB a b = true
    · have hba : charLtB b a = false := by
        by_contra hc
        rw [Bool.not_eq_false] at hc
        have h1 := charLtB_lt.mp hab
        have h2 := charLtB_lt.mp hc
        omega
      rw [strLtAux, if_neg (by simp [hba]), if_pos hab]
    · rw [if_neg hab] at h
      by_cases hba : charLtB b a = true
      · rw [if_pos hba] at h; cases h
      · rw [if_neg hba] at h
        have ih := strLtAux_asymm as bs h
        rw [strLtAux, if_neg hba, if_neg hab, ih]

theorem strLtAux_le_trans : ∀ (as bs cs : List Char),
    strLtAux bs as = false → strLtAux cs bs = false →
    strLtAux cs as = false
  | [], _, [] => fun _ _ => rfl
  | [], _, _ :: _ => fun _ _ => rfl
  | _ :: _, [], _ => by intro h1 _; simp [strLtAux] at h1
  | _ :: _, _ :: _, [] => by intro _ h2; simp [strLtAux] at h2
  | a :: as, b :: bs, c :: cs => by
    intro h1 h2
    rw [strLtAux] at h1 h2
    by_cases hba : charLtB b a = true
    · rw [if_pos hba] at h1; cases h1
    · rw [if_neg hba] at h1
      by_cases hcb : charLtB c b = true
      · rw [if_pos hcb] at h2; cases h2
      · rw [if_neg hcb] at h2
        rw [Bool.not_eq_true, charLtB, Bool.eq_false_iff] at hba hcb
        have hba' : ¬ b.toNat < a.toNat := by
          intro hlt
          exact hba (by simpa [Nat.blt_eq] using hlt)
        have hcb' : ¬ c.toNat < b.toNat := by
          intro hlt
          exact hcb (by simpa [Nat.blt_eq] using hlt)
        have hca : charLtB c a = false := by
          rw [charLtB, Bool.eq_false_iff]
          intro hc
          rw [Nat.blt_eq] at hc
          omega
        rw [strLtAux, if_neg (by simp [hca])]
        by_cases hac : charLtB a c = true
        · rw [if_pos hac]
        · rw [if_neg hac]
          rw [Bool.not_eq_true, charLtB, Bool.eq_false_iff] at hac
          have hac' : ¬ a.toNat < c.toNat := by
            intro hlt
            exact hac (by simpa [Nat.blt_eq] using hlt)
          have hab : charLtB a b = false := by
            rw [charLtB, Bool.eq_false_iff]
            intro hc
            rw [Nat.blt_eq] at hc
            omega
          have hbc : charLtB b c = false := by
            rw [charLtB, Bool.eq_false_iff]
            intro hc
            rw [Nat.blt_eq] at hc
            omega
          rw [if_neg (by simp [hab])] at h1
          rw [if_neg (by simp [hbc])] at h2
          exact strLtAux_le_trans as bs cs h1 h2

theorem artLe_total (a b : Artifact) : artLe a b = true ∨ artLe b a = true := by
  rw [artLe, artLe, strLeB, strLeB, strLtB, strLtB]
  by_cases h : strLtAux b.path.data a.path.data = true
  · right
    rw [strLtAux_asymm _ _ h]
    rfl
  · left
    rw [Bool.not_eq_true] at h
    rw [h]
    rfl

theorem artLe_trans (a b c : Artifact) (h1 : artLe a b = true)
    (h2 : artLe b c = true) : artLe a c = true := by
  rw [artLe, strLeB, strLtB] at h1 h2 ⊢
  rw [Bool.not_eq_eq_eq_not] at h1 h2 ⊢
  exact strLtAux_le_trans _ _ _ h1 h2

/-- C5: resolving one dependency: an empty artifact set is a failure
(missing dependency); a non-empty set is sorted by the artifact order
(a stable key — the sort is a sorted permutation of the lookup
result), the first element of the sorted list is used, and the
resolution succeeds with the ambiguity warning emitted exactly when
more than one artifact matched. -/
theorem c5_resource_resolution (stores : MergedStores) (dep : Dependency)
    (l : List Artifact)
    (hlk : stores.lookup dep.name dep.constr = .ok l) :
    (l = [] → buildResource stores dep = .error "Cannot find dependency")
    ∧ (∀ first rest, sortArtifacts l = first :: rest →
        buildResource stores dep
          = .ok ⟨.artifact first, decide (1 < l.length)⟩)
    ∧ (sortArtifacts l).Perm l
    ∧ List.Sorted (fun a b => artLe a b = true) (sortArtifacts l) := by
  refine ⟨?_, ?_, ?_, ?_⟩
  · rintro rfl
    simp [buildResource, hlk]
  · intro first rest hsort
    have hne : l.isEmpty = false := by
      cases l with
      | nil => rw [show sortArtifacts [] = [] from rfl] at hsort; cases hsort
      | cons x xs => rfl
    simp [buildResource, hlk, hne, hsort]
  · exact List.perm_insertionSort _ l
  · haveI : IsTotal Artifact (fun a b => artLe a b = true) := ⟨artLe_total⟩
    haveI : IsTrans Artifact (fun a b => artLe a b = true) :=
      ⟨fun a b c => artLe_trans a b c⟩
    exact List.sorted_insertionSort _ l

/-- C5, witness: a lookup returning the two artifacts `zz` and `aa`
resolves, without failing, to `aa` (first in sorted order) with the
warning emitted. -/
theorem c5_resource_resolution_witness :
    buildResource ⟨fun _ _ => .ok [⟨"zz"⟩, ⟨"aa"⟩]⟩ ⟨"b", "1"⟩
      = .ok ⟨.artifact ⟨"aa"⟩, true⟩ := by
  have h := (c5_resource_resolution ⟨fun _ _ => .ok [⟨"zz"⟩, ⟨"aa"⟩]⟩
    ⟨"b", "1"⟩ [⟨"zz"⟩, ⟨"aa"⟩] rfl).2.1 ⟨"aa"⟩ [⟨"zz"⟩] rfl
  simpa using h

theorem resolveAll_length (stores : MergedStores) :
    ∀ (ds : List Dependency) (rs : List JobResource),
    resolveAll stores ds = .ok rs → rs.length = ds.length := by
  intro ds
  induction ds with
  | nil =>
    intro rs h
    rw [resolveAll] at h
    injection h with h'
    rw [← h']
    rfl
  | cons d ds ih =>
    intro rs h
    rw [resolveAll] at h
    cases hb : buildResource stores d with
    | error e => rw [hb] at h; cases h
    | ok r =>
      rw [hb] at h
      cases hr : resolveAll stores ds with
      | error e => rw [hr] at h; cases h
      | ok rs' =>
        rw [hr] at h
        injection h with h'
        rw [← h']
        simp [ih rs' hr]

/-- C6: whenever `build_from_job` succeeds, the resource list has one
resource per build dependency followed by one per runtime dependency —
its length is `|build_deps| + |runtime_deps|`, and every
build-dependency resource precedes every runtime-dependency resource,
for any completion order of the two concurrent resolution groups. -/
theorem c6_resources_shape (job : Job) (stores : MergedStores)
    (permB permR : List JobResource → List JobResource)
    (hB : ∀ l, (permB l).Perm l) (hR : ∀ l, (permR l).Perm l)
    (rj : RunnableJob)
    (h : buildFromJob job stores permB permR = .ok rj) :
    rj.resources.length
      = job.package.buildDeps.length + job.package.runtimeDeps.length
    ∧ ∃ bres rres,
        resolveAll stores job.package.buildDeps = .ok bres
        ∧ resolveAll stores job.package.runtimeDeps = .ok rres
        ∧ rj.resources = permB bres ++ permR rres := by
  rw [buildFromJob] at h
  cases hs : job.scriptResult with
  | error e => rw [hs] at h; cases h
  | ok script =>
    rw [hs] at h
    cases hb : resolveAll stores job.package.buildDeps with
    | error e => rw [hb] at h; cases h
    | ok bres =>
      cases hr : resolveAll stores job.package.runtimeDeps with
      | error e => rw [hb, hr] at h; cases h
      | ok rres =>
        rw [hb, hr] at h
        injection h with h'
        have hres : rj.resources = permB bres ++ permR rres := by
          rw [← h']
        refine ⟨?_, bres, rres, rfl, rfl, hres⟩
        rw [hres]
        rw [List.length_append, (hB bres).length_eq, (hR rres).length_eq,
          resolveAll_length stores _ _ hb, resolveAll_length stores _ _ hr]

/-- C6, witness: a job with one build and one runtime dependency, both
resolvable, yields two resources with the build resource first. -/
theorem c6_resources_shape_witness :
    buildFromJob exampleJob exampleStores id id = .ok exampleRunnable
    ∧ exampleRunnable.resources.length = 1 + 1 := by
  refine ⟨rfl, ?_⟩
  have h := (c6_resources_shape exampleJob exampleStores id id
    (fun l => List.Perm.refl l) (fun l => List.Perm.refl l)
    exampleRunnable rfl).1
  rw [h]
  rfl

/-- C9, counterexample: with two releases (primary keys 1 and 2) and
limit 2, the `releases` subcommand displays `[2, 1]` — the limited
window is *not* reversed, so the output is newest-first, while
`artifacts` on the same rows displays `[1, 2]` (oldest-first). -/
theorem c9_releases_not_reversed :
    releasesDisplayed [1, 2] 2 = [2, 1]
    ∧ artifactsDisplayed [1, 2] 2 = [1, 2]
    ∧ releasesDisplayed [1, 2] 2 ≠ [1, 2] :=
  ⟨rfl, rfl, by decide⟩

/-- C9, amended: `artifacts`, `submits` and `jobs` select rows by
descending primary key, apply the limit, and reverse the window so the
display is oldest-first (ascending); `releases` applies the same
descending-key window but displays it without reversing
(newest-first); a limit of 0 becomes `i64::MAX`, which windows every
row (the display is then a permutation of the whole table). -/
theorem c9_window_ordering (rows : List Nat) (limit : Int) (dflt : Nat)
    (hlen : rows.length ≤ i64Max.toNat) :
    getLimit (some 0) dflt = .ok i64Max
    ∧ submitsDisplayed rows limit = artifactsDisplayed rows limit
    ∧ jobsDisplayed rows limit = artifactsDisplayed rows limit
    ∧ List.Sorted (· ≤ ·) (artifactsDisplayed rows limit)
    ∧ List.Sorted (fun a b : Nat => b ≤ a) (releasesDisplayed rows limit)
    ∧ (artifactsDisplayed rows i64Max).Perm rows := by
  haveI : IsTotal Nat (fun a b : Nat => b ≤ a) := ⟨fun a b => le_total b a⟩
  haveI : IsTrans Nat (fun a b : Nat => b ≤ a) :=
    ⟨fun a b c h1 h2 => le_trans h2 h1⟩
  have hdesc : List.Sorted (fun a b : Nat => b ≤ a)
      (limitWindowDesc rows limit) :=
    List.Pairwise.sublist (List.take_sublist _ _)
      (List.sorted_insertionSort _ rows)
  refine ⟨rfl, rfl, rfl, ?_, hdesc, ?_⟩
  · rw [artifactsDisplayed]
    exact List.pairwise_reverse.mpr hdesc
  · rw [artifactsDisplayed, limitWindowDesc, List.take_of_length_le]
    · exact (List.reverse_perm _).trans (List.perm_insertionSort _ rows)
    · rw [(List.perm_insertionSort _ rows).length_eq]
      exact hlen

/-- C9, witness: on the concrete table `[2, 1]` with limit 5, the
artifacts display is ascending. -/
theorem c9_window_ordering_witness :
    ([2, 1] : List Nat).length ≤ i64Max.toNat
    ∧ List.Sorted (· ≤ ·) (artifactsDisplayed [2, 1] 5) :=
  ⟨by decide, (c9_window_ordering [2, 1] 5 0 (by decide)).2.2.2.1⟩

end Butido
